import Mathlib

/- Verification of the aya-metrics emission engine.

   Shallow embedding of src/aya-metrics/src/lib.rs (types Dimension, Metric,
   EbpfMetrics and the emit_metrics task) together with the counter-source
   mock PerCpuArray from src/aya-metrics-mocks/src/lib.rs.  Machine integers
   (u64) are modelled as Nat with explicit reduction modulo 2 ^ 64 at the
   points where the Rust arithmetic wraps.  The metric sink is observed
   through explicit event logs: registration events and per-tick increment
   events, so that every value a handle ever receives is visible in the
   model. -/

/-- Number of values of a Rust u64; counter arithmetic wraps modulo this. -/
def u64Limit : Nat := 2 ^ 64

/-- Wrapping u64 subtraction, the semantics of the Rust expression
value - prev_value on u64 operands (lib.rs line 224). -/
def wsub (a b : Nat) : Nat := (a + (u64Limit - b % u64Limit)) % u64Limit

/-- Wrapping u64 addition, the semantics of delta_sum += delta (line 227). -/
def wadd (a b : Nat) : Nat := (a + b) % u64Limit

/-- A metrics-crate label: a name and a value. -/
structure Label where
  name : String
  value : String
  deriving DecidableEq, Repr

/-- Dimension of a metric (lib.rs, enum Dimension): By carries extra labels,
ByCpu carries extra labels to which a cpu label is appended per online cpu. -/
inductive Dimension where
  | By (labels : List Label)
  | ByCpu (labels : List Label)
  deriving DecidableEq, Repr

/-- The METRIC_LABEL_CPU constant of lib.rs. -/
def METRIC_LABEL_CPU : String := "cpu"

/-- Map access errors of the mock PerCpuArray (aya-metrics-mocks lib.rs). -/
inductive MapError where
  | outOfBounds (index : Nat) (maxEntries : Nat)
  | keyNotFound
  deriving DecidableEq, Repr

/-- The Error enum of src/aya-metrics/src/lib.rs. -/
inductive EmitError where
  | mapError (e : MapError)
  | invalidPossibleCpu
  | invalidOnlineCpu
  deriving DecidableEq, Repr

/-- One call the registration phase of emit_metrics makes on the metric sink
(lines 173-200), tagged by the code path that makes it: the describe_counter
macro, a counter registration for a By (aggregate) dimension, or a counter
registration for a ByCpu dimension and one online cpu. -/
inductive RegEvent where
  | describeCounter (name unit descr : String)
  | registerAgg (name : String) (labels : List Label)
  | registerPerCpu (name : String) (cpu : Nat) (labels : List Label)
  deriving DecidableEq, Repr

/-- State of the registration loop: the lengths of the two handle vectors
counter_handles and counter_handles_by_cpu that emit_metrics pushes into,
plus the log of sink calls made so far. -/
structure RegState where
  counter_handles : Nat
  counter_handles_by_cpu : Nat
  events : List RegEvent
  deriving DecidableEq, Repr

/-- One iteration of the registration loop over metric.dimensions
(lib.rs lines 182-200).  A By dimension registers one handle and pushes it
onto counter_handles; a ByCpu dimension registers one handle per online cpu,
with the cpu label appended, and pushes the vector onto
counter_handles_by_cpu. -/
def regDim (name : String) (cpus : List Nat) (s : RegState) : Dimension → RegState
  | Dimension.By labels =>
      ⟨s.counter_handles + 1, s.counter_handles_by_cpu,
        s.events ++ [RegEvent.registerAgg name labels]⟩
  | Dimension.ByCpu labels =>
      ⟨s.counter_handles, s.counter_handles_by_cpu + 1,
        s.events ++ cpus.map (fun cpu_id =>
          RegEvent.registerPerCpu name cpu_id
            (labels ++ [⟨METRIC_LABEL_CPU, toString cpu_id⟩]))⟩

/-- The whole registration phase of emit_metrics: describe the meter once
(line 173), then fold the registration loop over the dimension list. -/
def registerMetric (name unit descr : String) (dims : List Dimension)
    (cpus : List Nat) : RegState :=
  dims.foldl (regDim name cpus) ⟨0, 0, [RegEvent.describeCounter name unit descr]⟩

/-- Sink calls a single dimension causes, used to state the order of the
registration log. -/
def regEventsOf (name : String) (cpus : List Nat) : Dimension → List RegEvent
  | Dimension.By labels => [RegEvent.registerAgg name labels]
  | Dimension.ByCpu labels =>
      cpus.map (fun cpu_id =>
        RegEvent.registerPerCpu name cpu_id
          (labels ++ [⟨METRIC_LABEL_CPU, toString cpu_id⟩]))

/-- Recognizer for aggregate-handle registrations. -/
def isAggReg : RegEvent → Bool
  | RegEvent.registerAgg _ _ => true
  | _ => false

/-- Recognizer for per-cpu-handle registrations. -/
def isPerCpuReg : RegEvent → Bool
  | RegEvent.registerPerCpu _ _ _ => true
  | _ => false

/-- Recognizer for describe calls. -/
def isDescribeReg : RegEvent → Bool
  | RegEvent.describeCounter _ _ _ => true
  | _ => false

/-- Recognizer for By (aggregate) dimensions. -/
def isByDim : Dimension → Bool
  | Dimension.By _ => true
  | Dimension.ByCpu _ => false

/-- One increment received by a sink handle during a tick.  perCpu j c a:
the handle for cpu c in the j-th ByCpu handle vector is incremented by a.
agg j a: the j-th aggregate handle is incremented by a. -/
inductive IncEvent where
  | perCpu (dim cpu amount : Nat)
  | agg (dim amount : Nat)
  deriving DecidableEq, Repr

/-- State of the per-tick loop: prev_values (the stored previous snapshot),
the running delta_sum, and the log of increments issued so far this tick. -/
structure TickState where
  prev_values : List Nat
  delta_sum : Nat
  events : List IncEvent
  deriving DecidableEq, Repr

/-- Body of the per-cpu loop of emit_metrics (lib.rs lines 218-236) for one
cpu id: if the snapshot has a slot for this cpu (counter_values.get),
compute the wrapping delta against prev_values, add it to delta_sum, store
the new value into prev_values, and increment the handle for this cpu in
every ByCpu handle vector (nb of them); otherwise do nothing. -/
def processCpu (nb : Nat) (counter_values : List Nat) (s : TickState)
    (cpu_id : Nat) : TickState :=
  if cpu_id < counter_values.length then
    let value := counter_values.getD cpu_id 0
    let prev_value := s.prev_values.getD cpu_id 0
    let delta := wsub value prev_value
    ⟨s.prev_values.set cpu_id value, wadd s.delta_sum delta,
      s.events ++ (List.range nb).map (fun j => IncEvent.perCpu j cpu_id delta)⟩
  else s

/-- One tick of emit_metrics after a successful read (lines 214-241): fold
the per-cpu loop over the online cpus starting from delta_sum = 0, then
increment each of the na aggregate handles by the final delta_sum. -/
def tickBody (na nb : Nat) (cpus : List Nat) (counter_values : List Nat)
    (prev : List Nat) : TickState :=
  let s := cpus.foldl (processCpu nb counter_values) ⟨prev, 0, []⟩
  ⟨s.prev_values, s.delta_sum,
    s.events ++ (List.range na).map (fun j => IncEvent.agg j s.delta_sum)⟩

/-- All amounts by which the handle of ByCpu dimension j for cpu c is
incremented during a tick, in order. -/
def perCpuIncs (s : TickState) (j c : Nat) : List Nat :=
  s.events.filterMap (fun e =>
    match e with
    | IncEvent.perCpu j' c' a => if j' = j ∧ c' = c then some a else none
    | IncEvent.agg _ _ => none)

/-- All amounts by which the j-th aggregate handle is incremented during a
tick, in order. -/
def aggIncs (s : TickState) (j : Nat) : List Nat :=
  s.events.filterMap (fun e =>
    match e with
    | IncEvent.agg j' a => if j' = j then some a else none
    | IncEvent.perCpu _ _ _ => none)

/-- PerCpuArray::get of the mock counter source (aya-metrics-mocks lib.rs
lines 112-119): OutOfBounds carrying the index and the table size when the
index is at or past the table size, otherwise the per-cpu value vector
stored at that index. -/
def perCpuArrayGet (inner : List (List Nat)) (index : Nat) :
    Except MapError (List Nat) :=
  match inner[index]? with
  | none => Except.error (MapError.outOfBounds index inner.length)
  | some values => Except.ok values

/-- Control-flow outcome of one iteration of the emit_metrics loop.  The
Rust function has return type Result of unit and Error, so alongside
continuing the loop it could in principle return Ok (exitOk) or Err
(exitErr); the loop body reads the counter source and on failure returns
the error, otherwise runs the tick body and loops. -/
inductive StepOutcome where
  | next (st : TickState)
  | exitErr (e : EmitError)
  | exitOk
  deriving DecidableEq, Repr

/-- One iteration of the emit_metrics loop (lines 205-242) as a control-flow
step: a failed read exits the function with the error wrapped in
Error::MapError; a successful read runs the tick body and continues. -/
def emitStep (inner : List (List Nat)) (index na nb : Nat) (cpus : List Nat)
    (prev : List Nat) : StepOutcome :=
  match perCpuArrayGet inner index with
  | Except.error e => StepOutcome.exitErr (EmitError.mapError e)
  | Except.ok counter_values =>
      StepOutcome.next (tickBody na nb cpus counter_values prev)

/-- One tick including the read: the error, or the resulting tick state. -/
def tickOnce (inner : List (List Nat)) (index na nb : Nat) (cpus : List Nat)
    (prev : List Nat) : Except EmitError TickState :=
  match perCpuArrayGet inner index with
  | Except.error e => Except.error (EmitError.mapError e)
  | Except.ok counter_values =>
      Except.ok (tickBody na nb cpus counter_values prev)

/-- The emit_metrics loop after n ticks.  source k is the content of the
counter map when tick k reads it (the external producer may change it
between ticks).  prev_values is seeded to cpu_count zeros (line 203).  An
error at any tick ends the loop; it stays the final value for all later
indices. -/
def emitLoop (source : Nat → List (List Nat)) (index na nb : Nat)
    (cpus : List Nat) (cpu_count : Nat) : Nat → Except EmitError TickState
  | 0 => tickOnce (source 0) index na nb cpus (List.replicate cpu_count 0)
  | n + 1 =>
    match emitLoop source index na nb cpus cpu_count n with
    | Except.error e => Except.error e
    | Except.ok st => tickOnce (source (n + 1)) index na nb cpus st.prev_values

/-- Snapshot-level run of the loop: the tick state after tick n when every
read succeeds and tick k observes the snapshot snapshots k. -/
def emitRun (na nb : Nat) (cpus : List Nat) (snapshots : Nat → List Nat)
    (cpu_count : Nat) : Nat → TickState
  | 0 => tickBody na nb cpus (snapshots 0) (List.replicate cpu_count 0)
  | n + 1 =>
      tickBody na nb cpus (snapshots (n + 1))
        (emitRun na nb cpus snapshots cpu_count n).prev_values

/-- Value prev_values holds for cpu c when tick n starts: 0 before tick 0
(the all-zero seed), afterwards the slot of the previous snapshot. -/
def prevSnap (snapshots : Nat → List Nat) (c : Nat) : Nat → Nat
  | 0 => 0
  | n + 1 => (snapshots n).getD c 0

/-- The prev_values list passed into tick n. -/
def prevIn (na nb : Nat) (cpus : List Nat) (snapshots : Nat → List Nat)
    (cpu_count : Nat) : Nat → List Nat
  | 0 => List.replicate cpu_count 0
  | n + 1 => (emitRun na nb cpus snapshots cpu_count n).prev_values

/-- Wrapping delta of one cpu slot between the current snapshot and the
stored previous values. -/
def dlt (vals prev : List Nat) (c : Nat) : Nat :=
  wsub (vals.getD c 0) (prev.getD c 0)

/-- Effect of one loop iteration on prev_values alone. -/
def setStep (vals : List Nat) (p : List Nat) (c : Nat) : List Nat :=
  if c < vals.length then p.set c (vals.getD c 0) else p

/-- Effect of one loop iteration on delta_sum alone, with the previous
values frozen at prev (valid while no cpu id repeats). -/
def sumStep (vals prev : List Nat) (a : Nat) (c : Nat) : Nat :=
  if c < vals.length then wadd a (dlt vals prev c) else a

/-- Increment events one loop iteration appends, with the previous values
frozen at prev. -/
def evBlock (nb : Nat) (vals prev : List Nat) (c : Nat) : List IncEvent :=
  if c < vals.length then
    (List.range nb).map (fun j => IncEvent.perCpu j c (dlt vals prev c))
  else []

/-- Snapshot sequence of scenarios A, B, C of the specification: two online
cpus, snapshot [0,0] at tick 0, [42,0] at tick 1, [50,8] from tick 2 on. -/
def snapsABC : Nat → List Nat := fun k => [[0, 0], [42, 0], [50, 8]].getD k [50, 8]

/-- Numeral form of the u64 modulus. -/
theorem u64Limit_eq : u64Limit = 18446744073709551616 := by norm_num [u64Limit]

/-- The u64 modulus is positive. -/
theorem u64Limit_pos : 0 < u64Limit := by rw [u64Limit_eq]; omega

/-- For in-range operands with no underflow, the wrapping subtraction is
plain subtraction. -/
theorem wsub_eq_sub {a b : Nat} (hba : b ≤ a) (ha : a < u64Limit) :
    wsub a b = a - b := by
  unfold wsub
  rw [u64Limit_eq] at *
  omega

/-- On underflow the wrapping subtraction wraps around the u64 modulus. -/
theorem wsub_eq_wrap {a b : Nat} (hab : a < b) (hb : b < u64Limit) :
    wsub a b = u64Limit - (b - a) := by
  unfold wsub
  rw [u64Limit_eq] at *
  omega

/-- Wrapping addition always lands below the modulus. -/
theorem wadd_lt (a b : Nat) : wadd a b < u64Limit :=
  Nat.mod_lt _ u64Limit_pos

/-- The prev_values component of one loop iteration is setStep. -/
theorem processCpu_prev (nb : Nat) (vals : List Nat) (s : TickState) (a : Nat) :
    (processCpu nb vals s a).prev_values = setStep vals s.prev_values a := by
  unfold processCpu setStep
  split <;> rfl

/-- The delta_sum component of one loop iteration is sumStep. -/
theorem processCpu_sum (nb : Nat) (vals : List Nat) (s : TickState) (a : Nat) :
    (processCpu nb vals s a).delta_sum
      = sumStep vals s.prev_values s.delta_sum a := by
  unfold processCpu sumStep dlt
  split <;> rfl

/-- The events component of one loop iteration appends evBlock. -/
theorem processCpu_events (nb : Nat) (vals : List Nat) (s : TickState) (a : Nat) :
    (processCpu nb vals s a).events
      = s.events ++ evBlock nb vals s.prev_values a := by
  unfold processCpu evBlock dlt
  split
  · rfl
  · simp

/-- setStep at another index does not change a getD read. -/
theorem getD_setStep_ne (vals p : List Nat) {a c : Nat} (h : a ≠ c) :
    (setStep vals p a).getD c 0 = p.getD c 0 := by
  unfold setStep
  split
  · simp [List.getD_eq_getElem?_getD, List.getElem?_set_ne h]
  · rfl

/-- setStep keeps the length of prev_values. -/
theorem length_setStep (vals p : List Nat) (a : Nat) :
    (setStep vals p a).length = p.length := by
  unfold setStep
  split <;> simp

/-- Folding a function that only looks at list members through f is stable
under replacing f by a member-wise equal function. -/
theorem foldl_congr_mem {α β : Type} (f g : β → α → β) :
    ∀ (l : List α) (b : β), (∀ a ∈ l, ∀ x, f x a = g x a) →
      l.foldl f b = l.foldl g b
  | [], _, _ => rfl
  | a :: l, b, h => by
    simp only [List.foldl_cons]
    rw [h a (by simp)]
    exact foldl_congr_mem f g l (g b a) (fun x hx y => h x (by simp [hx]) y)

/-- flatMap is stable under member-wise equal block functions. -/
theorem flatMap_congr_mem {α β : Type} (f g : α → List β) :
    ∀ l : List α, (∀ a ∈ l, f a = g a) → l.flatMap f = l.flatMap g
  | [], _ => rfl
  | a :: l, h => by
    simp only [List.flatMap_cons]
    rw [h a (by simp)]
    rw [flatMap_congr_mem f g l (fun x hx => h x (by simp [hx]))]

/-- dlt does not change when prev is updated at a different index. -/
theorem dlt_setStep_ne (vals p : List Nat) {a c : Nat} (h : a ≠ c) :
    dlt vals (setStep vals p a) c = dlt vals p c := by
  unfold dlt
  rw [getD_setStep_ne vals p h]

/-- Closed form of the per-cpu loop fold: when no cpu id repeats, the
prev_values, delta_sum and event components evolve independently, all
reading the previous values frozen at entry. -/
theorem foldl_processCpu (nb : Nat) (vals : List Nat) :
    ∀ (l : List Nat) (s : TickState), l.Nodup →
      l.foldl (processCpu nb vals) s =
        ⟨l.foldl (setStep vals) s.prev_values,
         l.foldl (sumStep vals s.prev_values) s.delta_sum,
         s.events ++ l.flatMap (evBlock nb vals s.prev_values)⟩
  | [], s, _ => by simp
  | a :: l, s, hnd => by
    have hna : a ∉ l := (List.nodup_cons.mp hnd).1
    have hndl : l.Nodup := (List.nodup_cons.mp hnd).2
    have key := foldl_processCpu nb vals l (processCpu nb vals s a) hndl
    have hne : ∀ x ∈ l, a ≠ x := fun x hx he => hna (he ▸ hx)
    have hsum : l.foldl (sumStep vals (setStep vals s.prev_values a))
          (sumStep vals s.prev_values s.delta_sum a)
        = l.foldl (sumStep vals s.prev_values)
          (sumStep vals s.prev_values s.delta_sum a) :=
      foldl_congr_mem _ _ l _ (fun x hx y => by
        unfold sumStep
        rw [dlt_setStep_ne vals s.prev_values (hne x hx)])
    have hev : l.flatMap (evBlock nb vals (setStep vals s.prev_values a))
        = l.flatMap (evBlock nb vals s.prev_values) :=
      flatMap_congr_mem _ _ l (fun x hx => by
        unfold evBlock
        rw [dlt_setStep_ne vals s.prev_values (hne x hx)])
    simp only [List.foldl_cons, List.flatMap_cons]
    rw [key, processCpu_prev, processCpu_sum, processCpu_events, hsum, hev,
      List.append_assoc]

/-- Closed form of a whole tick when no cpu id repeats. -/
theorem tickBody_eq (na nb : Nat) (cpus vals prev : List Nat)
    (hnd : cpus.Nodup) :
    tickBody na nb cpus vals prev =
      ⟨cpus.foldl (setStep vals) prev,
       cpus.foldl (sumStep vals prev) 0,
       cpus.flatMap (evBlock nb vals prev)
         ++ (List.range na).map
              (fun j => IncEvent.agg j (cpus.foldl (sumStep vals prev) 0))⟩ := by
  unfold tickBody
  rw [foldl_processCpu nb vals cpus ⟨prev, 0, []⟩ hnd]
  simp

/-- The per-cpu loop keeps the length of prev_values. -/
theorem length_foldl_setStep (vals : List Nat) :
    ∀ (l : List Nat) (p : List Nat),
      (l.foldl (setStep vals) p).length = p.length
  | [], _ => rfl
  | a :: l, p => by
    simp only [List.foldl_cons]
    rw [length_foldl_setStep vals l (setStep vals p a), length_setStep]

/-- A getD read at c survives the loop when every occurrence of c in the
loop is skipped for being outside the snapshot. -/
theorem getD_foldl_setStep_stable (vals : List Nat) :
    ∀ (l : List Nat) (p : List Nat) (c : Nat),
      (∀ x ∈ l, x = c → vals.length ≤ x) →
      (l.foldl (setStep vals) p).getD c 0 = p.getD c 0
  | [], _, _, _ => rfl
  | a :: l, p, c, h => by
    simp only [List.foldl_cons]
    rw [getD_foldl_setStep_stable vals l (setStep vals p a) c
      (fun x hx => h x (by simp [hx]))]
    by_cases hac : a = c
    · have := h a (by simp) hac
      unfold setStep
      rw [if_neg (by omega)]
    · exact getD_setStep_ne vals p hac

/-- After a loop pass over a duplicate-free cpu list containing c, with c
inside both the snapshot and prev_values, the stored slot for c is the
snapshot value. -/
theorem getD_foldl_setStep_mem (vals : List Nat) :
    ∀ (l : List Nat) (p : List Nat) (c : Nat), l.Nodup → c ∈ l →
      c < vals.length → c < p.length →
      (l.foldl (setStep vals) p).getD c 0 = vals.getD c 0
  | [], _, _, _, hc, _, _ => absurd hc (by simp)
  | a :: l, p, c, hnd, hc, hcv, hcp => by
    have hna : a ∉ l := (List.nodup_cons.mp hnd).1
    have hndl : l.Nodup := (List.nodup_cons.mp hnd).2
    simp only [List.foldl_cons]
    rcases List.mem_cons.mp hc with hac | hcl
    · subst hac
      have hnotin : ∀ x ∈ l, x = c → vals.length ≤ x :=
        fun x hx he => absurd (he ▸ hx) hna
      rw [getD_foldl_setStep_stable vals l (setStep vals p c) c hnotin]
      unfold setStep
      rw [if_pos hcv, List.getD_eq_getElem?_getD, List.getElem?_set_self hcp]
      rfl
    · exact getD_foldl_setStep_mem vals l (setStep vals p a) c hndl hcl hcv
        (by rw [length_setStep]; exact hcp)

/-- The delta_sum fold is the sum of the wrapping deltas of the cpus that
are inside the snapshot, reduced modulo the u64 modulus. -/
theorem foldl_sumStep_eq (vals prev : List Nat) :
    ∀ (l : List Nat) (a : Nat), a < u64Limit →
      l.foldl (sumStep vals prev) a
        = (a + ((l.filter (fun x => x < vals.length)).map (dlt vals prev)).sum)
            % u64Limit
  | [], a, ha => by simpa using (Nat.mod_eq_of_lt ha).symm
  | x :: l, a, ha => by
    simp only [List.foldl_cons, List.filter_cons]
    by_cases hx : x < vals.length
    · rw [if_pos (by simpa using hx)]
      have hstep : sumStep vals prev a x = wadd a (dlt vals prev x) := by
        unfold sumStep
        rw [if_pos hx]
      rw [hstep,
        foldl_sumStep_eq vals prev l (wadd a (dlt vals prev x)) (wadd_lt _ _)]
      unfold wadd
      simp only [List.map_cons, List.sum_cons]
      rw [Nat.mod_add_mod]
      ring_nf
    · rw [if_neg (by simpa using hx)]
      have hstep : sumStep vals prev a x = a := by
        unfold sumStep
        rw [if_neg hx]
      rw [hstep]
      exact foldl_sumStep_eq vals prev l a ha

/-- The aggregate increments at the end of a tick are invisible to a
per-cpu handle. -/
theorem filterMap_perCpu_aggRange (j c na d : Nat) :
    List.filterMap (fun e =>
        match e with
        | IncEvent.perCpu j' c' a => if j' = j ∧ c' = c then some a else none
        | IncEvent.agg _ _ => none)
      ((List.range na).map (fun i => IncEvent.agg i d)) = [] := by
  rw [List.filterMap_map]
  exact List.filterMap_eq_nil_iff.mpr (fun a _ => rfl)

/-- What a single per-cpu increment event contributes to the observed
increments of the handle of ByCpu dimension j for cpu c. -/
theorem filterMap_perCpu_single (j c nb x d : Nat) :
    List.filterMap (fun e =>
        match e with
        | IncEvent.perCpu j' c' a => if j' = j ∧ c' = c then some a else none
        | IncEvent.agg _ _ => none)
      [IncEvent.perCpu nb x d]
    = if nb = j ∧ x = c then [d] else [] := by
  by_cases h : nb = j ∧ x = c
  · simp [List.filterMap_cons, h.1, h.2]
  · simp [List.filterMap_cons, h]

/-- What one per-cpu event block contributes to the increments of the
handle of ByCpu dimension j for cpu c. -/
theorem filterMap_perCpu_block (j c d : Nat) :
    ∀ (nb x : Nat),
      List.filterMap (fun e =>
          match e with
          | IncEvent.perCpu j' c' a => if j' = j ∧ c' = c then some a else none
          | IncEvent.agg _ _ => none)
        ((List.range nb).map (fun i => IncEvent.perCpu i x d))
      = if j < nb ∧ x = c then [d] else []
  | 0, x => by simp
  | nb + 1, x => by
    rw [List.range_succ, List.map_append, List.filterMap_append,
      filterMap_perCpu_block j c d nb x]
    simp only [List.map_cons, List.map_nil]
    rw [filterMap_perCpu_single j c nb x d]
    by_cases hx : x = c
    · by_cases hj : j < nb
      · rw [if_pos ⟨hj, hx⟩, if_neg (fun h => absurd h.1 (by omega)),
          if_pos ⟨by omega, hx⟩]
        simp
      · by_cases hj2 : nb = j
        · rw [if_neg (fun h => hj h.1), if_pos ⟨hj2, hx⟩,
            if_pos ⟨by omega, hx⟩]
          simp
        · rw [if_neg (fun h => hj h.1), if_neg (fun h => hj2 h.1),
            if_neg (fun h => absurd h.1 (by omega))]
          simp
    · rw [if_neg (fun h => hx h.2), if_neg (fun h => hx h.2),
        if_neg (fun h => hx h.2)]
      simp

/-- Cpu ids other than c never contribute to the increments of a handle
for cpu c. -/
theorem filterMap_perCpu_flatMap_notmem (nb : Nat) (vals prev : List Nat)
    (j c : Nat) :
    ∀ l : List Nat, c ∉ l →
      List.filterMap (fun e =>
          match e with
          | IncEvent.perCpu j' c' a => if j' = j ∧ c' = c then some a else none
          | IncEvent.agg _ _ => none)
        (l.flatMap (evBlock nb vals prev)) = []
  | [], _ => rfl
  | x :: l, hc => by
    rw [List.flatMap_cons, List.filterMap_append,
      filterMap_perCpu_flatMap_notmem nb vals prev j c l (fun h => hc (by simp [h]))]
    have hxc : ¬x = c := fun h => hc (by simp [h])
    unfold evBlock
    split
    · rw [filterMap_perCpu_block j c _ nb x, if_neg (fun h => hxc h.2)]
      rfl
    · rfl

/-- A cpu outside the snapshot bounds contributes no per-cpu increment to
any handle at all during the tick. -/
theorem filterMap_perCpu_flatMap_skip (nb : Nat) (vals prev : List Nat)
    (j c : Nat) (hge : vals.length ≤ c) :
    ∀ l : List Nat,
      List.filterMap (fun e =>
          match e with
          | IncEvent.perCpu j' c' a => if j' = j ∧ c' = c then some a else none
          | IncEvent.agg _ _ => none)
        (l.flatMap (evBlock nb vals prev)) = []
  | [] => rfl
  | x :: l => by
    rw [List.flatMap_cons, List.filterMap_append,
      filterMap_perCpu_flatMap_skip nb vals prev j c hge l]
    unfold evBlock
    split
    · rw [filterMap_perCpu_block j c _ nb x,
        if_neg (fun h => absurd (h.2 ▸ (by assumption : x < vals.length))
          (by omega))]
      rfl
    · rfl

/-- Over a duplicate-free cpu list containing c, with c inside the snapshot
and j an existing ByCpu dimension, the per-cpu loop increments the handle
of dimension j for cpu c exactly once, by the wrapping delta of c. -/
theorem filterMap_perCpu_flatMap_mem (nb : Nat) (vals prev : List Nat)
    (j c : Nat) (hj : j < nb) (hlt : c < vals.length) :
    ∀ l : List Nat, l.Nodup → c ∈ l →
      List.filterMap (fun e =>
          match e with
          | IncEvent.perCpu j' c' a => if j' = j ∧ c' = c then some a else none
          | IncEvent.agg _ _ => none)
        (l.flatMap (evBlock nb vals prev)) = [dlt vals prev c]
  | [], _, hc => absurd hc (by simp)
  | x :: l, hnd, hc => by
    have hna : x ∉ l := (List.nodup_cons.mp hnd).1
    have hndl : l.Nodup := (List.nodup_cons.mp hnd).2
    rw [List.flatMap_cons, List.filterMap_append]
    rcases List.mem_cons.mp hc with hxc | hcl
    · subst hxc
      rw [filterMap_perCpu_flatMap_notmem nb vals prev j c l hna]
      unfold evBlock
      rw [if_pos hlt, filterMap_perCpu_block j c _ nb c, if_pos ⟨hj, rfl⟩]
      rfl
    · have hxc : ¬x = c := fun h => hna (h ▸ hcl)
      rw [filterMap_perCpu_flatMap_mem nb vals prev j c hj hlt l hndl hcl]
      unfold evBlock
      split
      · rw [filterMap_perCpu_block j c _ nb x, if_neg (fun h => hxc h.2)]
        rfl
      · rfl

/-- Per-cpu event blocks are invisible to aggregate handles. -/
theorem filterMap_agg_flatMap (nb : Nat) (vals prev : List Nat) (j : Nat) :
    ∀ l : List Nat,
      List.filterMap (fun e =>
          match e with
          | IncEvent.agg j' a => if j' = j then some a else none
          | IncEvent.perCpu _ _ _ => none)
        (l.flatMap (evBlock nb vals prev)) = []
  | [] => rfl
  | x :: l => by
    rw [List.flatMap_cons, List.filterMap_append,
      filterMap_agg_flatMap nb vals prev j l, List.append_nil]
    unfold evBlock
    split
    · rw [List.filterMap_map]
      exact List.filterMap_eq_nil_iff.mpr (fun a _ => rfl)
    · rfl

/-- What the aggregate increments at the end of a tick contribute to the
j-th aggregate handle: one increment of the final delta_sum when the
handle exists. -/
theorem filterMap_agg_aggRange (j d : Nat) :
    ∀ na : Nat,
      List.filterMap (fun e =>
          match e with
          | IncEvent.agg j' a => if j' = j then some a else none
          | IncEvent.perCpu _ _ _ => none)
        ((List.range na).map (fun i => IncEvent.agg i d))
      = if j < na then [d] else []
  | 0 => by simp
  | na + 1 => by
    rw [List.range_succ, List.map_append, List.filterMap_append,
      filterMap_agg_aggRange j d na]
    simp only [List.map_cons, List.map_nil]
    by_cases hj2 : na = j
    · rw [if_neg (by omega), if_pos (by omega)]
      simp [List.filterMap_cons, hj2]
    · by_cases hj : j < na
      · rw [if_pos hj, if_pos (by omega)]
        simp [List.filterMap_cons, hj2]
      · rw [if_neg hj, if_neg (by omega)]
        simp [List.filterMap_cons, hj2]

/-- Reading a slot of the all-zero seed gives zero. -/
theorem getD_replicate_zero (k c : Nat) :
    (List.replicate k (0 : Nat)).getD c 0 = 0 := by
  rw [List.getD_eq_getElem?_getD, List.getElem?_replicate]
  split <;> rfl

/-- A getD read of a list of u64 values stays below the u64 modulus. -/
theorem getD_lt_u64 {l : List Nat} (h : ∀ v ∈ l, v < u64Limit) (c : Nat) :
    l.getD c 0 < u64Limit := by
  by_cases hc : c < l.length
  · rw [List.getD_eq_getElem l 0 hc]
    exact h _ (List.getElem_mem hc)
  · rw [List.getD_eq_getElem?_getD, List.getElem?_eq_none (by omega)]
    exact u64Limit_pos

/-- During a tick over a duplicate-free cpu list, the handle of an existing
ByCpu dimension j for an in-bounds cpu c receives exactly one increment:
the wrapping delta of c. -/
theorem tickBody_perCpuIncs (na nb : Nat) (cpus vals prev : List Nat)
    (c j : Nat) (hnd : cpus.Nodup) (hc : c ∈ cpus) (hlt : c < vals.length)
    (hj : j < nb) :
    perCpuIncs (tickBody na nb cpus vals prev) j c = [dlt vals prev c] := by
  rw [tickBody_eq na nb cpus vals prev hnd]
  unfold perCpuIncs
  simp only
  rw [List.filterMap_append,
    filterMap_perCpu_flatMap_mem nb vals prev j c hj hlt cpus hnd hc,
    filterMap_perCpu_aggRange]
  rfl

/-- During a tick, an online cpu whose id is outside the snapshot bounds
causes no increment at all on its per-cpu handles. -/
theorem tickBody_perCpuIncs_skip (na nb : Nat) (cpus vals prev : List Nat)
    (c j : Nat) (hnd : cpus.Nodup) (hge : vals.length ≤ c) :
    perCpuIncs (tickBody na nb cpus vals prev) j c = [] := by
  rw [tickBody_eq na nb cpus vals prev hnd]
  unfold perCpuIncs
  simp only
  rw [List.filterMap_append,
    filterMap_perCpu_flatMap_skip nb vals prev j c hge cpus,
    filterMap_perCpu_aggRange]
  rfl

/-- The delta_sum of a tick is the sum of the wrapping deltas of the
in-bounds online cpus, reduced modulo the u64 modulus. -/
theorem tickBody_delta_sum (na nb : Nat) (cpus vals prev : List Nat)
    (hnd : cpus.Nodup) :
    (tickBody na nb cpus vals prev).delta_sum
      = ((cpus.filter (fun x => x < vals.length)).map (dlt vals prev)).sum
          % u64Limit := by
  rw [tickBody_eq na nb cpus vals prev hnd]
  simp only
  rw [foldl_sumStep_eq vals prev cpus 0 u64Limit_pos]
  simp

/-- During a tick, an existing aggregate handle j receives exactly one
increment: the final delta_sum. -/
theorem tickBody_aggIncs (na nb : Nat) (cpus vals prev : List Nat) (j : Nat)
    (hnd : cpus.Nodup) (hj : j < na) :
    aggIncs (tickBody na nb cpus vals prev) j
      = [((cpus.filter (fun x => x < vals.length)).map (dlt vals prev)).sum
          % u64Limit] := by
  have hds := tickBody_delta_sum na nb cpus vals prev hnd
  rw [tickBody_eq na nb cpus vals prev hnd] at hds ⊢
  simp only at hds ⊢
  unfold aggIncs
  simp only
  rw [List.filterMap_append, filterMap_agg_flatMap nb vals prev j cpus,
    filterMap_agg_aggRange j _ na, if_pos hj, List.nil_append, hds]

/-- The prev_values component of a tick is the setStep fold. -/
theorem tickBody_prev (na nb : Nat) (cpus vals prev : List Nat)
    (hnd : cpus.Nodup) :
    (tickBody na nb cpus vals prev).prev_values
      = cpus.foldl (setStep vals) prev := by
  rw [tickBody_eq na nb cpus vals prev hnd]

/-- A tick keeps the length of prev_values (with no duplicate assumption). -/
theorem tickBody_prev_length (na nb : Nat) (cpus vals prev : List Nat) :
    (tickBody na nb cpus vals prev).prev_values.length = prev.length := by
  unfold tickBody
  simp only
  have h : ∀ (l : List Nat) (s : TickState),
      (l.foldl (processCpu nb vals) s).prev_values.length
        = s.prev_values.length := by
    intro l
    induction l with
    | nil => intro s; rfl
    | cons a l ih =>
      intro s
      simp only [List.foldl_cons]
      rw [ih (processCpu nb vals s a), processCpu_prev, length_setStep]
  exact h cpus ⟨prev, 0, []⟩

/-- Tick n of the snapshot-level run is one tick body over the prev_values
carried in from the previous tick. -/
theorem emitRun_eq_tickBody (na nb : Nat) (cpus : List Nat)
    (snapshots : Nat → List Nat) (cpu_count : Nat) :
    ∀ n, emitRun na nb cpus snapshots cpu_count n
      = tickBody na nb cpus (snapshots n)
          (prevIn na nb cpus snapshots cpu_count n)
  | 0 => rfl
  | _ + 1 => rfl

/-- The previous-values list entering any tick has cpu_count slots. -/
theorem prevIn_length (na nb : Nat) (cpus : List Nat)
    (snapshots : Nat → List Nat) (cpu_count : Nat) :
    ∀ n, (prevIn na nb cpus snapshots cpu_count n).length = cpu_count
  | 0 => by simp [prevIn]
  | n + 1 => by
    show (emitRun na nb cpus snapshots cpu_count n).prev_values.length
      = cpu_count
    rw [emitRun_eq_tickBody na nb cpus snapshots cpu_count n,
      tickBody_prev_length, prevIn_length na nb cpus snapshots cpu_count n]

/-- The previous-values slot of an online cpu entering tick n holds
prevSnap: zero before tick 0, afterwards the slot of the last snapshot. -/
theorem prevIn_getD (na nb : Nat) (cpus : List Nat)
    (snapshots : Nat → List Nat) (cpu_count : Nat) (hnd : cpus.Nodup)
    (hcc : ∀ x ∈ cpus, x < cpu_count) :
    ∀ n, (∀ k, k < n → (snapshots k).length = cpu_count) → ∀ c ∈ cpus,
      (prevIn na nb cpus snapshots cpu_count n).getD c 0
        = prevSnap snapshots c n
  | 0, _, c, _ => by simp [prevIn, prevSnap, getD_replicate_zero]
  | n + 1, hlen, c, hc => by
    show (emitRun na nb cpus snapshots cpu_count n).prev_values.getD c 0
      = (snapshots n).getD c 0
    rw [emitRun_eq_tickBody na nb cpus snapshots cpu_count n,
      tickBody_prev na nb cpus (snapshots n) _ hnd]
    exact getD_foldl_setStep_mem (snapshots n) cpus _ c hnd hc
      (by rw [hlen n (by omega)]; exact hcc c hc)
      (by rw [prevIn_length na nb cpus snapshots cpu_count n]; exact hcc c hc)

/-- The sink log of the registration loop lists, after the initial state,
the registrations of each dimension in dimension-list order. -/
theorem foldl_regDim_events (name : String) (cpus : List Nat) :
    ∀ (dims : List Dimension) (s : RegState),
      (dims.foldl (regDim name cpus) s).events
        = s.events ++ dims.flatMap (regEventsOf name cpus)
  | [], s => by simp
  | d :: dims, s => by
    simp only [List.foldl_cons, List.flatMap_cons]
    rw [foldl_regDim_events name cpus dims (regDim name cpus s d)]
    cases d with
    | By labels => simp [regDim, regEventsOf]
    | ByCpu labels => simp [regDim, regEventsOf]

/-- The registration loop pushes one handle onto counter_handles per By
dimension. -/
theorem foldl_regDim_handles (name : String) (cpus : List Nat) :
    ∀ (dims : List Dimension) (s : RegState),
      (dims.foldl (regDim name cpus) s).counter_handles
        = s.counter_handles + dims.countP isByDim
  | [], s => by simp
  | d :: dims, s => by
    simp only [List.foldl_cons, List.countP_cons]
    rw [foldl_regDim_handles name cpus dims (regDim name cpus s d)]
    cases d with
    | By labels => simp [regDim, isByDim]; omega
    | ByCpu labels => simp [regDim, isByDim]

/-- Dimension registrations never contain a describe call. -/
theorem countP_describe_flatMap (name : String) (cpus : List Nat) :
    ∀ dims : List Dimension,
      (dims.flatMap (regEventsOf name cpus)).countP isDescribeReg = 0
  | [] => rfl
  | d :: dims => by
    rw [List.flatMap_cons, List.countP_append,
      countP_describe_flatMap name cpus dims]
    cases d with
    | By labels => rfl
    | ByCpu labels =>
      simp only [regEventsOf, Nat.add_zero]
      rw [List.countP_eq_zero.mpr]
      intro e he
      rcases List.mem_map.mp he with ⟨x, _, hx⟩
      rw [← hx]
      simp [isDescribeReg]

/-- A read at an index at or past the table size fails with OutOfBounds. -/
theorem perCpuArrayGet_error {inner : List (List Nat)} {index : Nat}
    (h : inner.length ≤ index) :
    perCpuArrayGet inner index
      = Except.error (MapError.outOfBounds index inner.length) := by
  unfold perCpuArrayGet
  rw [List.getElem?_eq_none h]

/-- A read at an in-bounds index succeeds and returns the stored vector. -/
theorem perCpuArrayGet_ok {inner : List (List Nat)} {index : Nat}
    (h : index < inner.length) :
    perCpuArrayGet inner index = Except.ok (inner.getD index []) := by
  unfold perCpuArrayGet
  rw [List.getElem?_eq_getElem h]
  rw [List.getD_eq_getElem inner [] h]

/-- While every read so far succeeded, the loop is still running and its
state is well defined. -/
theorem emitLoop_ok (source : Nat → List (List Nat)) (index na nb : Nat)
    (cpus : List Nat) (cpu_count : Nat) :
    ∀ n, (∀ k, k ≤ n → index < (source k).length) →
      emitLoop source index na nb cpus cpu_count n
        = Except.ok (emitRun na nb cpus
            (fun k => (source k).getD index []) cpu_count n)
  | 0, h => by
    show tickOnce (source 0) index na nb cpus (List.replicate cpu_count 0) = _
    unfold tickOnce
    rw [perCpuArrayGet_ok (h 0 (by omega))]
    rfl
  | n + 1, h => by
    show (match emitLoop source index na nb cpus cpu_count n with
      | Except.error e => Except.error e
      | Except.ok st =>
          tickOnce (source (n + 1)) index na nb cpus st.prev_values) = _
    rw [emitLoop_ok source index na nb cpus cpu_count n
      (fun k hk => h k (by omega))]
    unfold tickOnce
    rw [perCpuArrayGet_ok (h (n + 1) (by omega))]
    rfl

/-- An error ends the loop: it is the final value at every later tick
index, propagated unchanged without retry. -/
theorem emitLoop_error_persists (source : Nat → List (List Nat))
    (index na nb : Nat) (cpus : List Nat) (cpu_count : Nat) (n : Nat)
    (e : EmitError)
    (h : emitLoop source index na nb cpus cpu_count n = Except.error e) :
    ∀ m, n ≤ m →
      emitLoop source index na nb cpus cpu_count m = Except.error e := by
  intro m hm
  induction m with
  | zero =>
    have : n = 0 := by omega
    exact this ▸ h
  | succ m ih =>
    rcases Nat.lt_or_ge n (m + 1) with hlt | hge
    · have hmn : n ≤ m := by omega
      show (match emitLoop source index na nb cpus cpu_count m with
        | Except.error e => Except.error e
        | Except.ok st =>
            tickOnce (source (m + 1)) index na nb cpus st.prev_values)
        = Except.error e
      rw [ih hmn]
    · have : n = m + 1 := by omega
      exact this ▸ h

/-- With no online cpu, a tick leaves prev_values untouched, ends with
delta_sum zero, and increments each aggregate handle by zero. -/
theorem tickBody_empty (na nb : Nat) (vals prev : List Nat) :
    tickBody na nb [] vals prev
      = ⟨prev, 0, (List.range na).map (fun j => IncEvent.agg j 0)⟩ := by
  unfold tickBody
  simp

/-- With no online cpu, every tick of the loop succeeds as long as reads
succeed, and every tick state is the same: zero delta_sum, untouched
all-zero prev_values, and one zero increment per aggregate handle. -/
theorem emitLoop_empty_cpus (source : Nat → List (List Nat))
    (index na nb cpu_count : Nat) :
    ∀ n, (∀ k, k ≤ n → index < (source k).length) →
      emitLoop source index na nb [] cpu_count n
        = Except.ok ⟨List.replicate cpu_count 0, 0,
            (List.range na).map (fun j => IncEvent.agg j 0)⟩
  | 0, h => by
    show tickOnce (source 0) index na nb [] (List.replicate cpu_count 0) = _
    unfold tickOnce
    rw [perCpuArrayGet_ok (h 0 (by omega))]
    show Except.ok (tickBody na nb [] ((source 0).getD index [])
      (List.replicate cpu_count 0)) = _
    rw [tickBody_empty]
  | n + 1, h => by
    show (match emitLoop source index na nb [] cpu_count n with
      | Except.error e => Except.error e
      | Except.ok st =>
          tickOnce (source (n + 1)) index na nb [] st.prev_values) = _
    rw [emitLoop_empty_cpus source index na nb cpu_count n
      (fun k hk => h k (by omega))]
    show tickOnce (source (n + 1)) index na nb [] (List.replicate cpu_count 0)
      = _
    unfold tickOnce
    rw [perCpuArrayGet_ok (h (n + 1) (by omega))]
    show Except.ok (tickBody na nb [] ((source (n + 1)).getD index [])
      (List.replicate cpu_count 0)) = _
    rw [tickBody_empty]

/-- The aggregate handles of the empty-cpu tick state each receive exactly
one zero increment. -/
theorem aggIncs_empty_state (na cpu_count j : Nat) (hj : j < na) :
    aggIncs ⟨List.replicate cpu_count 0, 0,
        (List.range na).map (fun i => IncEvent.agg i 0)⟩ j = [0] := by
  unfold aggIncs
  simp only
  rw [filterMap_agg_aggRange j 0 na, if_pos hj]

/-- The empty-cpu tick state contains no per-cpu increment at all. -/
theorem perCpuIncs_empty_state (na cpu_count j c : Nat) :
    perCpuIncs ⟨List.replicate cpu_count 0, 0,
        (List.range na).map (fun i => IncEvent.agg i 0)⟩ j c = [] := by
  unfold perCpuIncs
  simp only
  rw [filterMap_perCpu_aggRange]

/-- Zero previous value leaves an in-range u64 untouched under wrapping
subtraction. -/
theorem wsub_zero {a : Nat} (ha : a < u64Limit) : wsub a 0 = a := by
  unfold wsub
  rw [u64Limit_eq] at *
  omega

/-- C1: at every tick n of an emission task, for every online cpu c
captured at startup, the delta emitted for c equals the current snapshot
slot minus the previous snapshot slot (previous state seeded all zero
before tick 0); each per-cpu handle for c receives exactly that one delta,
and each aggregate handle receives exactly the sum of those deltas over
all online cpus, so neither kind of handle ever receives the value of the
other.  The hypotheses state the runtime invariants: distinct online cpu
ids below the cpu count, snapshots of cpu_count u64 slots, monotone
counters, and a tick sum that fits in a u64. -/
theorem c1_delta_and_aggregate (na nb cpu_count n : Nat) (cpus : List Nat)
    (snapshots : Nat → List Nat) (c : Nat)
    (hnd : cpus.Nodup)
    (hcc : ∀ x ∈ cpus, x < cpu_count)
    (hlen : ∀ k, k ≤ n → (snapshots k).length = cpu_count)
    (hval : ∀ k, k ≤ n → ∀ v ∈ snapshots k, v < u64Limit)
    (hmono : ∀ x ∈ cpus, prevSnap snapshots x n ≤ (snapshots n).getD x 0)
    (hsum : (cpus.map (fun x => (snapshots n).getD x 0)).sum < u64Limit)
    (hc : c ∈ cpus) :
    (∀ j, j < nb → perCpuIncs (emitRun na nb cpus snapshots cpu_count n) j c
        = [(snapshots n).getD c 0 - prevSnap snapshots c n]) ∧
    (∀ j, j < na → aggIncs (emitRun na nb cpus snapshots cpu_count n) j
        = [(cpus.map
            (fun x => (snapshots n).getD x 0 - prevSnap snapshots x n)).sum]) := by
  rw [emitRun_eq_tickBody na nb cpus snapshots cpu_count n]
  have hlen_n : (snapshots n).length = cpu_count := hlen n (le_refl n)
  have hprevD : ∀ x ∈ cpus,
      (prevIn na nb cpus snapshots cpu_count n).getD x 0
        = prevSnap snapshots x n :=
    prevIn_getD na nb cpus snapshots cpu_count hnd hcc n
      (fun k hk => hlen k (by omega))
  have hdlt : ∀ x ∈ cpus,
      dlt (snapshots n) (prevIn na nb cpus snapshots cpu_count n) x
        = (snapshots n).getD x 0 - prevSnap snapshots x n := by
    intro x hx
    unfold dlt
    rw [hprevD x hx]
    exact wsub_eq_sub (hmono x hx) (getD_lt_u64 (hval n (le_refl n)) x)
  constructor
  · intro j hj
    rw [tickBody_perCpuIncs na nb cpus (snapshots n) _ c j hnd hc
      (by have := hcc c hc; omega) hj]
    rw [hdlt c hc]
  · intro j hj
    rw [tickBody_aggIncs na nb cpus (snapshots n) _ j hnd hj]
    have hfil : cpus.filter (fun x => x < (snapshots n).length) = cpus :=
      List.filter_eq_self.mpr (fun x hx => by
        have := hcc x hx
        simp only [decide_eq_true_eq]
        omega)
    rw [hfil, List.map_congr_left hdlt]
    have hle : (cpus.map
          (fun x => (snapshots n).getD x 0 - prevSnap snapshots x n)).sum
        ≤ (cpus.map (fun x => (snapshots n).getD x 0)).sum :=
      List.sum_le_sum (fun x _ => Nat.sub_le _ _)
    rw [Nat.mod_eq_of_lt (by omega)]

/-- Witness for C1 at scenario C of the specification: tick 2 with
snapshots [0,0], [42,0], [50,8], cpu 0 receives 50 - 42 and the aggregate
handle receives (50 - 42) + (8 - 0). -/
theorem c1_delta_and_aggregate_witness :
    ([0, 1] : List Nat).Nodup ∧
    ((∀ j, j < 1 → perCpuIncs (emitRun 1 1 [0, 1] snapsABC 2 2) j 0
        = [(snapsABC 2).getD 0 0 - prevSnap snapsABC 0 2]) ∧
      (∀ j, j < 1 → aggIncs (emitRun 1 1 [0, 1] snapsABC 2 2) j
        = [(([0, 1] : List Nat).map
            (fun x => (snapsABC 2).getD x 0 - prevSnap snapsABC x 2)).sum])) :=
  ⟨by decide,
   c1_delta_and_aggregate 1 1 2 2 [0, 1] snapsABC 0 (by decide) (by decide)
     (by decide) (by decide) (by decide) (by decide) (by decide)⟩

/-- C2 counterexample: the claim says tick 0 emits a zero delta for every
initial counter state.  With one online cpu and a counter that already
holds 5 at the first read, tick 0 increments both the per-cpu handle and
the aggregate handle by 5, not by 0: only the stored previous state is
seeded to zero, not the first snapshot. -/
theorem c2_tick0_counterexample :
    perCpuIncs (emitRun 1 1 [0] (fun _ => [5]) 1 0) 0 0 = [5] ∧
    aggIncs (emitRun 1 1 [0] (fun _ => [5]) 1 0) 0 = [5] ∧
    ([5] : List Nat) ≠ [0] := by decide

/-- C2 amended: at tick 0 the previous state is the all-zero seed, so each
per-cpu handle is incremented by exactly the first snapshot value of its
cpu and each aggregate handle by the sum of the first snapshot values over
the online cpus.  These increments are zero exactly when the first
snapshot is zero at the online cpus (as in scenario A, where the counters
have not been touched before the first read), not for every initial
counter state. -/
theorem c2_tick0_amended (na nb cpu_count : Nat) (cpus : List Nat)
    (snapshots : Nat → List Nat) (c : Nat)
    (hnd : cpus.Nodup) (hcc : ∀ x ∈ cpus, x < cpu_count)
    (hlen0 : (snapshots 0).length = cpu_count)
    (hval0 : ∀ v ∈ snapshots 0, v < u64Limit)
    (hsum0 : (cpus.map (fun x => (snapshots 0).getD x 0)).sum < u64Limit)
    (hc : c ∈ cpus) :
    (∀ j, j < nb → perCpuIncs (emitRun na nb cpus snapshots cpu_count 0) j c
        = [(snapshots 0).getD c 0]) ∧
    (∀ j, j < na → aggIncs (emitRun na nb cpus snapshots cpu_count 0) j
        = [(cpus.map (fun x => (snapshots 0).getD x 0)).sum]) := by
  rw [emitRun_eq_tickBody na nb cpus snapshots cpu_count 0]
  have hdlt : ∀ x ∈ cpus,
      dlt (snapshots 0) (prevIn na nb cpus snapshots cpu_count 0) x
        = (snapshots 0).getD x 0 := by
    intro x hx
    unfold dlt prevIn
    rw [getD_replicate_zero]
    exact wsub_zero (getD_lt_u64 hval0 x)
  constructor
  · intro j hj
    rw [tickBody_perCpuIncs na nb cpus (snapshots 0) _ c j hnd hc
      (by have := hcc c hc; omega) hj]
    rw [hdlt c hc]
  · intro j hj
    rw [tickBody_aggIncs na nb cpus (snapshots 0) _ j hnd hj]
    have hfil : cpus.filter (fun x => x < (snapshots 0).length) = cpus :=
      List.filter_eq_self.mpr (fun x hx => by
        have := hcc x hx
        simp only [decide_eq_true_eq]
        omega)
    rw [hfil, List.map_congr_left hdlt, Nat.mod_eq_of_lt hsum0]

/-- Witness for the amended C2 at scenario A: first snapshot [0,0], so at
tick 0 every handle is incremented by zero. -/
theorem c2_tick0_amended_witness :
    ([0, 1] : List Nat).Nodup ∧
    ((∀ j, j < 1 → perCpuIncs (emitRun 1 1 [0, 1] snapsABC 2 0) j 0
        = [(snapsABC 0).getD 0 0]) ∧
      (∀ j, j < 1 → aggIncs (emitRun 1 1 [0, 1] snapsABC 2 0) j
        = [(([0, 1] : List Nat).map (fun x => (snapsABC 0).getD x 0)).sum])) :=
  ⟨by decide,
   c2_tick0_amended 1 1 2 [0, 1] snapsABC 0 (by decide) (by decide)
     (by decide) (by decide) (by decide) (by decide)⟩

/-- C3: when the current snapshot slot of an online cpu is below the stored
previous value, the emitted delta is computed by unsigned wraparound:
it equals 2 ^ 64 minus the decrease, exactly the u64 value of
current - previous modulo 2 ^ 64.  The cpu still takes part in the
aggregate sum (which accumulates the wrapped deltas modulo 2 ^ 64), the
subtraction neither fails nor saturates, and the stored previous value is
simply overwritten with the current one — no baseline reset. -/
theorem c3_wraparound_delta (na nb : Nat) (cpus vals prev : List Nat)
    (c : Nat) (hnd : cpus.Nodup) (hc : c ∈ cpus) (hlt : c < vals.length)
    (hcp : c < prev.length)
    (hdec : vals.getD c 0 < prev.getD c 0) (hpb : prev.getD c 0 < u64Limit) :
    (∀ j, j < nb → perCpuIncs (tickBody na nb cpus vals prev) j c
        = [u64Limit - (prev.getD c 0 - vals.getD c 0)]) ∧
    c ∈ cpus.filter (fun x => x < vals.length) ∧
    (tickBody na nb cpus vals prev).delta_sum
      = ((cpus.filter (fun x => x < vals.length)).map (dlt vals prev)).sum
          % u64Limit ∧
    (tickBody na nb cpus vals prev).prev_values.getD c 0 = vals.getD c 0 := by
  refine ⟨?_, ?_, tickBody_delta_sum na nb cpus vals prev hnd, ?_⟩
  · intro j hj
    rw [tickBody_perCpuIncs na nb cpus vals prev c j hnd hc hlt hj]
    unfold dlt
    rw [wsub_eq_wrap hdec hpb]
  · exact List.mem_filter.mpr ⟨hc, by simpa using hlt⟩
  · rw [tickBody_prev na nb cpus vals prev hnd]
    exact getD_foldl_setStep_mem vals cpus prev c hnd hc hlt hcp

/-- Witness for C3: one online cpu whose counter dropped from 10 to 3; the
emitted delta is 2 ^ 64 - 7 and the previous state becomes 3. -/
theorem c3_wraparound_delta_witness :
    (3 : Nat) < 10 ∧
    ((∀ j, j < 1 → perCpuIncs (tickBody 1 1 [0] [3] [10]) j 0
        = [u64Limit - (([10] : List Nat).getD 0 0 - ([3] : List Nat).getD 0 0)]) ∧
      0 ∈ ([0] : List Nat).filter (fun x => x < ([3] : List Nat).length) ∧
      (tickBody 1 1 [0] [3] [10]).delta_sum
        = ((([0] : List Nat).filter (fun x => x < ([3] : List Nat).length)).map
            (dlt [3] [10])).sum % u64Limit ∧
      (tickBody 1 1 [0] [3] [10]).prev_values.getD 0 0
        = ([3] : List Nat).getD 0 0) :=
  ⟨by decide,
   c3_wraparound_delta 1 1 [0] [3] [10] 0 (by decide) (by decide) (by decide)
     (by decide) (by decide) (by decide)⟩

/-- C4: if the counter-source read fails at tick n — as it does with the
out-of-range error when the meter index is at or beyond the table size —
the tick performs no handle update at all (the loop exits before any
increment), the error is propagated verbatim wrapped in Error::MapError,
and the task terminates: every later tick index yields the same error,
with no retry.  Since the read is the only fallible step of a tick, a tick
either completes all handle updates or updates none. -/
theorem c4_read_failure_fatal (source : Nat → List (List Nat))
    (index na nb cpu_count n : Nat) (cpus : List Nat)
    (hprior : ∀ k, k < n → index < (source k).length)
    (hfail : (source n).length ≤ index) :
    emitLoop source index na nb cpus cpu_count n
      = Except.error (EmitError.mapError
          (MapError.outOfBounds index (source n).length)) ∧
    ∀ m, n ≤ m → emitLoop source index na nb cpus cpu_count m
      = Except.error (EmitError.mapError
          (MapError.outOfBounds index (source n).length)) := by
  have hstep : emitLoop source index na nb cpus cpu_count n
      = Except.error (EmitError.mapError
          (MapError.outOfBounds index (source n).length)) := by
    cases n with
    | zero =>
      show tickOnce (source 0) index na nb cpus (List.replicate cpu_count 0)
        = _
      unfold tickOnce
      rw [perCpuArrayGet_error hfail]
    | succ n =>
      show (match emitLoop source index na nb cpus cpu_count n with
        | Except.error e => Except.error e
        | Except.ok st =>
            tickOnce (source (n + 1)) index na nb cpus st.prev_values) = _
      rw [emitLoop_ok source index na nb cpus cpu_count n
        (fun k hk => hprior k (by omega))]
      show tickOnce (source (n + 1)) index na nb cpus _ = _
      unfold tickOnce
      rw [perCpuArrayGet_error hfail]
  exact ⟨hstep,
    emitLoop_error_persists source index na nb cpus cpu_count n _ hstep⟩

/-- Witness for C4 at scenario D: a table of size 1, meter index 1, so the
very first read fails with the out-of-range error; the loop yields that
error at tick 0 and still at tick 3. -/
theorem c4_read_failure_fatal_witness :
    ((fun (_ : Nat) => [[(0 : Nat)]]) 0).length ≤ 1 ∧
    emitLoop (fun _ => [[0]]) 1 1 1 [0] 1 0
      = Except.error (EmitError.mapError (MapError.outOfBounds 1 1)) ∧
    emitLoop (fun _ => [[0]]) 1 1 1 [0] 1 3
      = Except.error (EmitError.mapError (MapError.outOfBounds 1 1)) :=
  ⟨by decide,
   (c4_read_failure_fatal (fun _ => [[0]]) 1 1 1 1 0 [0] (by decide)
     (by decide)).1,
   (c4_read_failure_fatal (fun _ => [[0]]) 1 1 1 1 0 [0] (by decide)
     (by decide)).2 3 (by decide)⟩

/-- C5 counterexample: the claim says all aggregate-dimension handles are
registered before any per-cpu-dimension handle, whatever the dimension
order.  For the dimension list [ByCpu [], By []] with one online cpu, the
sink log is describe, then the per-cpu registration, then the aggregate
registration — not describe followed by the aggregate registrations and
then the per-cpu ones. -/
theorem c5_registration_counterexample :
    ¬ ((registerMetric "packets" "count" ""
          [Dimension.ByCpu [], Dimension.By []] [0]).events
        = RegEvent.describeCounter "packets" "count" ""
          :: ((registerMetric "packets" "count" ""
                [Dimension.ByCpu [], Dimension.By []] [0]).events.filter
                isAggReg
            ++ (registerMetric "packets" "count" ""
                [Dimension.ByCpu [], Dimension.By []] [0]).events.filter
                isPerCpuReg)) := by decide

/-- C5 amended: the meter is described exactly once, first; after that the
handles are registered in the order the dimensions appear in the
definition list — one registration per By (aggregate) dimension and, for
each ByCpu dimension, one registration per online cpu in the captured
order with the cpu label appended.  Aggregate handles are not grouped
before per-cpu handles. -/
theorem c5_registration_order (name unit descr : String)
    (dims : List Dimension) (cpus : List Nat) :
    (registerMetric name unit descr dims cpus).events
      = RegEvent.describeCounter name unit descr
        :: dims.flatMap (regEventsOf name cpus) ∧
    (registerMetric name unit descr dims cpus).events.countP isDescribeReg
      = 1 := by
  constructor
  · unfold registerMetric
    rw [foldl_regDim_events]
    rfl
  · unfold registerMetric
    rw [foldl_regDim_events]
    show ([RegEvent.describeCounter name unit descr]
      ++ dims.flatMap (regEventsOf name cpus)).countP isDescribeReg = 1
    rw [List.countP_append, countP_describe_flatMap]
    simp [List.countP_cons, isDescribeReg]

/-- C7: with an empty online-cpu set captured at startup, the task neither
fails nor crashes: registration still creates one aggregate handle per By
dimension, every tick of the loop succeeds as long as reads succeed, every
aggregate handle is incremented by exactly zero each tick, and no per-cpu
increment ever happens, so no aggregate series ever rises above zero. -/
theorem c7_no_online_cpus (source : Nat → List (List Nat))
    (index na nb cpu_count n : Nat) (name unit descr : String)
    (dims : List Dimension)
    (hread : ∀ k, k ≤ n → index < (source k).length) :
    (registerMetric name unit descr dims []).counter_handles
      = dims.countP isByDim ∧
    ∀ k, k ≤ n → ∃ st,
      emitLoop source index na nb [] cpu_count k = Except.ok st ∧
      (∀ j, j < na → aggIncs st j = [0]) ∧
      (∀ j c, perCpuIncs st j c = []) := by
  constructor
  · unfold registerMetric
    rw [foldl_regDim_handles]
    simp
  · intro k hk
    refine ⟨_, emitLoop_empty_cpus source index na nb cpu_count k
      (fun k' hk' => hread k' (by omega)), ?_, ?_⟩
    · exact fun j hj => aggIncs_empty_state na cpu_count j hj
    · exact fun j c => perCpuIncs_empty_state na cpu_count j c

/-- Witness for C7: a one-entry table read at index 0 with no online cpu;
ticks 0 through 2 all succeed, each incrementing the single aggregate
handle by zero, and the By dimension still has its handle registered. -/
theorem c7_no_online_cpus_witness :
    (∀ k, k ≤ 2 → 0 < ((fun (_ : Nat) => [[(7 : Nat), 9]]) k).length) ∧
    ((registerMetric "m" "count" "" [Dimension.By []] []).counter_handles
        = ([Dimension.By []] : List Dimension).countP isByDim ∧
      ∀ k, k ≤ 2 → ∃ st,
        emitLoop (fun _ => [[7, 9]]) 0 1 1 [] 0 k = Except.ok st ∧
        (∀ j, j < 1 → aggIncs st j = [0]) ∧
        (∀ j c, perCpuIncs st j c = [])) :=
  ⟨by decide,
   c7_no_online_cpus (fun _ => [[7, 9]]) 0 1 1 0 2 "m" "count" ""
     [Dimension.By []] (by decide)⟩

/-- C8: an emission task never terminates successfully.  One loop iteration
either continues with the next tick state or exits with the read error
wrapped in Error::MapError; the Ok return of the Result type is never
produced.  Moreover a fatal error is final: once the loop has erred at
tick n, every later tick index yields that same first error, so whenever
the run terminates at all it reports the first fatal error, never a
success value. -/
theorem c8_never_ok (inner : List (List Nat)) (index na nb : Nat)
    (cpus prev : List Nat) (source : Nat → List (List Nat))
    (cpu_count n : Nat) (e : EmitError) :
    emitStep inner index na nb cpus prev ≠ StepOutcome.exitOk ∧
    ((∃ st, emitStep inner index na nb cpus prev = StepOutcome.next st) ∨
      (∃ err, emitStep inner index na nb cpus prev
          = StepOutcome.exitErr (EmitError.mapError err) ∧
        perCpuArrayGet inner index = Except.error err)) ∧
    (emitLoop source index na nb cpus cpu_count n = Except.error e →
      ∀ m, n ≤ m →
        emitLoop source index na nb cpus cpu_count m = Except.error e) := by
  refine ⟨?_, ?_,
    emitLoop_error_persists source index na nb cpus cpu_count n e⟩
  · unfold emitStep
    cases perCpuArrayGet inner index <;> simp
  · cases hq : perCpuArrayGet inner index with
    | error err =>
      refine Or.inr ⟨err, ?_, rfl⟩
      unfold emitStep
      rw [hq]
    | ok v =>
      refine Or.inl ⟨tickBody na nb cpus v prev, ?_⟩
      unfold emitStep
      rw [hq]

/-- Witness for C8, mirroring the empty-map test of the repository: a
zero-entry counter table makes the first read fail, the step is not a
successful exit, and the loop reports the same first error at tick 0 and
at tick 3. -/
theorem c8_never_ok_witness :
    emitStep [] 0 1 1 [0] [0] ≠ StepOutcome.exitOk ∧
    emitLoop (fun _ => []) 0 1 1 [0] 1 0
      = Except.error (EmitError.mapError (MapError.outOfBounds 0 0)) ∧
    emitLoop (fun _ => []) 0 1 1 [0] 1 3
      = Except.error (EmitError.mapError (MapError.outOfBounds 0 0)) :=
  ⟨(c8_never_ok [] 0 1 1 [0] [0] (fun _ => []) 1 0
      (EmitError.mapError (MapError.outOfBounds 0 0))).1,
   rfl,
   (c8_never_ok [] 0 1 1 [0] [0] (fun _ => []) 1 0
      (EmitError.mapError (MapError.outOfBounds 0 0))).2.2 rfl 3
      (by decide)⟩

/-- C10: when an online cpu id captured at startup has no slot in the
snapshot returned by the read, that cpu is silently skipped for the whole
tick: its per-cpu handles receive no increment at all, its previous-state
slot is left unchanged, it is excluded from the aggregate sum (the sum
ranges only over the in-bounds cpus), and every other in-bounds online cpu
is processed normally — one delta increment per per-cpu handle and the
snapshot value stored as the new previous state. -/
theorem c10_short_snapshot_skip (na nb : Nat) (cpus vals prev : List Nat)
    (c : Nat) (hnd : cpus.Nodup) (hc : c ∈ cpus) (hge : vals.length ≤ c) :
    (∀ j, perCpuIncs (tickBody na nb cpus vals prev) j c = []) ∧
    (tickBody na nb cpus vals prev).prev_values.getD c 0 = prev.getD c 0 ∧
    c ∉ cpus.filter (fun x => x < vals.length) ∧
    (tickBody na nb cpus vals prev).delta_sum
      = ((cpus.filter (fun x => x < vals.length)).map (dlt vals prev)).sum
          % u64Limit ∧
    (∀ c', c' ∈ cpus → c' < vals.length →
      (∀ j, j < nb → perCpuIncs (tickBody na nb cpus vals prev) j c'
          = [dlt vals prev c']) ∧
      (c' < prev.length →
        (tickBody na nb cpus vals prev).prev_values.getD c' 0
          = vals.getD c' 0)) := by
  refine ⟨?_, ?_, ?_, tickBody_delta_sum na nb cpus vals prev hnd, ?_⟩
  · exact fun j => tickBody_perCpuIncs_skip na nb cpus vals prev c j hnd hge
  · rw [tickBody_prev na nb cpus vals prev hnd]
    exact getD_foldl_setStep_stable vals cpus prev c
      (fun x _ hx => hx ▸ hge)
  · intro hmem
    have := (List.mem_filter.mp hmem).2
    simp only [decide_eq_true_eq] at this
    omega
  · intro c' hc' hlt'
    refine ⟨fun j hj =>
      tickBody_perCpuIncs na nb cpus vals prev c' j hnd hc' hlt' hj,
      fun hcp' => ?_⟩
    rw [tickBody_prev na nb cpus vals prev hnd]
    exact getD_foldl_setStep_mem vals cpus prev c' hnd hc' hlt' hcp'

/-- Witness for C10: online cpus 0 and 1 but a one-slot snapshot [5]; cpu 1
is skipped (no increment, previous value 3 kept, excluded from the sum)
while cpu 0 is processed normally. -/
theorem c10_short_snapshot_skip_witness :
    ([3] : List Nat).length ≤ 1 ∧
    ((∀ j, perCpuIncs (tickBody 1 1 [0, 1] [5] [2, 3]) j 1 = []) ∧
      (tickBody 1 1 [0, 1] [5] [2, 3]).prev_values.getD 1 0
        = ([2, 3] : List Nat).getD 1 0 ∧
      1 ∉ ([0, 1] : List Nat).filter (fun x => x < ([5] : List Nat).length) ∧
      (tickBody 1 1 [0, 1] [5] [2, 3]).delta_sum
        = ((([0, 1] : List Nat).filter
            (fun x => x < ([5] : List Nat).length)).map
            (dlt [5] [2, 3])).sum % u64Limit ∧
      (∀ c', c' ∈ ([0, 1] : List Nat) → c' < ([5] : List Nat).length →
        (∀ j, j < 1 → perCpuIncs (tickBody 1 1 [0, 1] [5] [2, 3]) j c'
            = [dlt [5] [2, 3] c']) ∧
        (c' < ([2, 3] : List Nat).length →
          (tickBody 1 1 [0, 1] [5] [2, 3]).prev_values.getD c' 0
            = ([5] : List Nat).getD c' 0))) :=
  ⟨by decide,
   c10_short_snapshot_skip 1 1 [0, 1] [5] [2, 3] 1 (by decide) (by decide)
     (by decide)⟩
